import Mathlib

set_option maxHeartbeats 1000000

/-!
Verification of the pin-management subsystem specification for this
repository. The repository ships only the reference test surface for
`pin.add`; the pin core (CID/link model, link-extractor registry, closure
walker, pin set and pin service) is modelled from the specification and the
claims are settled against that model.
-/

/-- Content identifier: immutable value of codec, hash function and digest;
equality is structural. -/
structure CID where
  codec : Nat
  hashFunction : Nat
  digest : Nat
deriving DecidableEq

/-- A link extracted from a decoded block: optional name and target CID. -/
structure Link where
  name : Option String
  target : CID
deriving DecidableEq

/-- Modelled from the spec: the decoded data model of a generic
structured-data (CBOR-like) codec. A `link` node is an embedded value that
is recognizably encoded as a CID per that codec's CID-tagging convention.
The byte-level encoding is out of scope of the spec; only the decoded shape
feeds the link-extraction contract. -/
inductive IpldValue where
  | nullV : IpldValue
  | boolV : Bool → IpldValue
  | intV : Int → IpldValue
  | strV : String → IpldValue
  | bytesV : List Nat → IpldValue
  | arr : List IpldValue → IpldValue
  | mapV : List (String × IpldValue) → IpldValue
  | link : CID → IpldValue

mutual

/-- All embedded CID values of a structured node, in traversal order. -/
def collectLinks : IpldValue → List CID
  | .link c => [c]
  | .arr xs => collectLinksList xs
  | .mapV es => collectLinksEntries es
  | _ => []

/-- `collectLinks` over a list of values. -/
def collectLinksList : List IpldValue → List CID
  | [] => []
  | x :: xs => collectLinks x ++ collectLinksList xs

/-- `collectLinks` over map entries. -/
def collectLinksEntries : List (String × IpldValue) → List CID
  | [] => []
  | e :: es => collectLinks e.2 ++ collectLinksEntries es

end

/-- Modelled from the spec: the decoded form of a block body, one shape per
supported codec family: `raw` leaves, DAG-node-codec blocks with an explicit
named-link table, and generic structured-data blocks. -/
inductive BlockData where
  | raw : List Nat → BlockData
  | dagNode : List Link → List Nat → BlockData
  | structured : IpldValue → BlockData

/-- The `raw` codec identifier (multicodec 0x55). -/
def rawCodec : Nat := 85

/-- The DAG-node codec identifier with named links (multicodec 0x70, dag-pb). -/
def dagPbCodec : Nat := 112

/-- The generic structured-data codec identifier (multicodec 0x71, dag-cbor). -/
def dagCborCodec : Nat := 113

/-- `raw` extractor: always the empty sequence of links. -/
def rawExtract : BlockData → List Link := fun _ => []

/-- DAG-node-codec extractor: the explicit link table encoded in the block. -/
def dagPbExtract : BlockData → List Link
  | .dagNode links _ => links
  | _ => []

/-- Structured-data extractor: every embedded CID value becomes an unnamed
link, in traversal order, enabling cross-codec references. -/
def dagCborExtract : BlockData → List Link
  | .structured v => (collectLinks v).map (fun c => { name := none, target := c })
  | _ => []

/-- Modelled from the spec: the Link Extractor registry, mapping a codec
identifier to its decode function; lookup of an unknown codec fails. -/
def extractorFor (codec : Nat) : Option (BlockData → List Link) :=
  if codec = rawCodec then some rawExtract
  else if codec = dagPbCodec then some dagPbExtract
  else if codec = dagCborCodec then some dagCborExtract
  else none

/-- The error surface of the pin core. -/
inductive PinError where
  | BlockNotFound : CID → PinError
  | UnsupportedCodec : Nat → PinError
  | AlreadyPinnedRecursively : CID → PinError
  | NotPinned : CID → PinError
  | DeadlineExceeded : PinError
  | InvalidInput : PinError
deriving DecidableEq

/-- Modelled from the spec: the external Block Store, read-only from the pin
core's perspective: a finite table from CID to (decoded) block body. -/
structure Env where
  store : List (CID × BlockData)

/-- `Get(cid)`: the block body stored under `cid`, if present. -/
def Env.get (env : Env) (c : CID) : Option BlockData :=
  (env.store.find? (fun p => decide (p.1 = c))).map (fun p => p.2)

/-- `Has(cid)`: whether the store holds a block for `cid`. -/
def Env.has (env : Env) (c : CID) : Bool :=
  (env.get c).isSome

/-- The child CIDs of a block: its extracted links' targets; empty when the
block is absent or its codec has no registered extractor. -/
def Env.childLinks (env : Env) (c : CID) : List CID :=
  match env.get c with
  | none => []
  | some bd =>
    match extractorFor c.codec with
    | none => []
    | some f => (f bd).map Link.target

/-- Modelled from the spec: the Closure Walker loop. Breadth-first traversal
with a visited set keyed by CID; an absent block aborts the entire
resolution with `BlockNotFound`, an unregistered codec with
`UnsupportedCodec`; the deadline is polled between node visits (here a
fuel of remaining visits) and its expiry aborts with `DeadlineExceeded`.
The result is the visited set in discovery order. -/
def resolveAux (env : Env) : Nat → List CID → List CID → Except PinError (List CID)
  | _, [], visited => .ok visited.reverse
  | 0, _ :: _, _ => .error .DeadlineExceeded
  | d + 1, c :: queue, visited =>
    if c ∈ visited then
      resolveAux env d queue visited
    else
      match env.get c with
      | none => .error (.BlockNotFound c)
      | some bd =>
        match extractorFor c.codec with
        | none => .error (.UnsupportedCodec c.codec)
        | some f =>
          resolveAux env d (queue ++ (f bd).map Link.target) (c :: visited)

/-- Modelled from the spec: `Resolve(root, deadline)` — the full reachable
set from `root` in discovery order, or an error, never a partial closure. -/
def Resolve (env : Env) (d : Nat) (root : CID) : Except PinError (List CID) :=
  resolveAux env d [root] []

/-- `x` is reachable from `root` through extracted links (the link-closure
membership relation, root included). -/
inductive Reaches (env : Env) (root : CID) : CID → Prop
  | refl : Reaches env root root
  | step {y x : CID} : Reaches env root y → x ∈ env.childLinks y → Reaches env root x

/-- A stored pin-entry kind: only Direct and Recursive are ever stored. -/
inductive StoredKind where
  | Direct : StoredKind
  | Recursive : StoredKind
deriving DecidableEq

/-- A queryable pin status: the stored kinds plus the derived Indirect view. -/
inductive PinKind where
  | Direct : PinKind
  | Recursive : PinKind
  | Indirect : PinKind
deriving DecidableEq

/-- Modelled from the spec: the Pin Set — the authoritative record of
Direct and Recursive pin entries; Indirect is a derived view, never a row. -/
structure PinSet where
  direct : List CID
  recursive : List CID
deriving DecidableEq

/-- The empty Pin Set. -/
def PinSet.empty : PinSet := ⟨[], []⟩

/-- `Put(cid, kind)`: idempotent insert — adding a present entry is a no-op. -/
def PinSet.put (ps : PinSet) (c : CID) : StoredKind → PinSet
  | .Direct => if c ∈ ps.direct then ps else { ps with direct := ps.direct ++ [c] }
  | .Recursive => if c ∈ ps.recursive then ps else { ps with recursive := ps.recursive ++ [c] }

/-- `IsIndirect(cid)`: whether some Recursive root's closure (computed by the
walker against the current store, under the query deadline) contains `cid`
with `cid` not itself that root. -/
def PinSet.isIndirect (ps : PinSet) (env : Env) (d : Nat) (c : CID) : Bool :=
  ps.recursive.any (fun r =>
    match Resolve env d r with
    | .ok res => decide (c ∈ res) && decide (c ≠ r)
    | .error _ => false)

/-- `IsPinned(cid, kind)`: whether the requested status holds — Direct and
Recursive from stored entries, Indirect derived. -/
def PinSet.isPinned (ps : PinSet) (env : Env) (d : Nat) (c : CID) : PinKind → Bool
  | .Direct => decide (c ∈ ps.direct)
  | .Recursive => decide (c ∈ ps.recursive)
  | .Indirect => ps.isIndirect env d c

/-- The Indirect members contributed by one Recursive root: its closure
minus the root itself (empty when the root no longer resolves). -/
def indirectsUnder (env : Env) (d : Nat) (root : CID) : List CID :=
  match Resolve env d root with
  | .ok res => res.filter (fun c => decide (c ≠ root))
  | .error _ => []

/-- `List(...)`: every Recursive root entry, every Direct entry, and every
CID that is Indirect under some Recursive root, as `(cid, kind)` rows; a CID
both Direct and Indirect yields two distinct rows. -/
def listPins (env : Env) (d : Nat) (ps : PinSet) : List (CID × PinKind) :=
  ps.recursive.map (fun c => (c, PinKind.Recursive))
    ++ ps.direct.map (fun c => (c, PinKind.Direct))
    ++ ((ps.recursive.map (indirectsUnder env d)).flatten.dedup.map
        (fun c => (c, PinKind.Indirect)))

/-- A pin descriptor: a bare CID or a `{cid, recursive}` object whose
`recursive` overrides the batch default. -/
inductive Descriptor where
  | bare : CID → Descriptor
  | withOpts : CID → Bool → Descriptor

/-- Normalize a descriptor to `{cid, recursive}` under the batch default. -/
def Descriptor.normalize (dflt : Bool) : Descriptor → CID × Bool
  | .bare c => (c, dflt)
  | .withOpts c r => (c, r)

/-- Modelled from the spec: processing of one normalized Add item. A Direct
pin of a current Recursive root fails `AlreadyPinnedRecursively`; a
Recursive pin runs the Closure Walker and commits only the root entry on
full success; any walker failure aborts the item with the Pin Set
untouched; a Direct pin otherwise commits with no traversal. -/
def addOne (env : Env) (d : Nat) (ps : PinSet) (c : CID) (recur : Bool) :
    Except PinError PinSet :=
  if recur then
    match Resolve env d c with
    | .error e => .error e
    | .ok _ => .ok (ps.put c .Recursive)
  else
    if c ∈ ps.recursive then .error (.AlreadyPinnedRecursively c)
    else .ok (ps.put c .Direct)

/-- Outcome of an Add call: the confirmations emitted in input order, the
Pin Set after all committed items, and the first error if one occurred. -/
structure AddResult where
  emitted : List CID
  pinset : PinSet
  error : Option PinError
deriving DecidableEq

/-- Modelled from the spec: `Add(input, {recursive, deadline})` over the
normalized input sequence: items processed in order, each item either
committed atomically and its CID emitted before the next item is touched,
or failing — which terminates the call with that error, earlier commits
kept, no commit for the failing item. -/
def addAll (env : Env) (d : Nat) (dflt : Bool) (ps : PinSet) :
    List Descriptor → AddResult
  | [] => ⟨[], ps, none⟩
  | de :: rest =>
    match addOne env d ps (de.normalize dflt).1 (de.normalize dflt).2 with
    | .error e => ⟨[], ps, some e⟩
    | .ok ps2 =>
      ⟨(de.normalize dflt).1 :: (addAll env d dflt ps2 rest).emitted,
        (addAll env d dflt ps2 rest).pinset, (addAll env d dflt ps2 rest).error⟩

/-- Fixture: a raw leaf CID. -/
def cidA : CID := ⟨rawCodec, 18, 2⟩

/-- Fixture: a second raw leaf CID. -/
def cidB : CID := ⟨rawCodec, 18, 3⟩

/-- Fixture: a DAG-node root CID. -/
def cidR : CID := ⟨dagPbCodec, 18, 1⟩

/-- Fixture: a directory-like store — root `cidR` linking leaves `cidA`,
`cidB`, all present. -/
def envDir : Env :=
  ⟨[(cidR, .dagNode [⟨some "a", cidA⟩, ⟨some "b", cidB⟩] [7]),
    (cidA, .raw [1]), (cidB, .raw [2])]⟩

/-- Fixture: a store where the root is present but its child `cidA` has been
removed. -/
def envMissing : Env :=
  ⟨[(cidR, .dagNode [⟨some "a", cidA⟩] [7]), (cidB, .raw [2])]⟩

/-- Fixture: a DAG-node-codec child CID. -/
def cidChild : CID := ⟨dagPbCodec, 18, 9⟩

/-- Fixture: a structured-data parent CID. -/
def cidParent : CID := ⟨dagCborCodec, 18, 8⟩

/-- Fixture: a structured-data parent whose map embeds a CID of a
DAG-node-codec child. -/
def envCbor : Env :=
  ⟨[(cidParent, .structured (.mapV [("child", .link cidChild)])),
    (cidChild, .dagNode [] [4])]⟩

/-- Fixture: the empty store. -/
def envEmpty : Env := ⟨[]⟩

theorem resolveAux_subset (env : Env) :
    ∀ (d : Nat) (queue visited res : List CID),
      resolveAux env d queue visited = Except.ok res →
      (∀ c, c ∈ queue → c ∈ res) ∧ (∀ c, c ∈ visited → c ∈ res) := by
  intro d
  induction d with
  | zero =>
    intro queue visited res h
    cases queue with
    | nil =>
      simp only [resolveAux, Except.ok.injEq] at h
      subst h
      exact ⟨fun c hc => absurd hc (List.not_mem_nil c),
        fun c hc => List.mem_reverse.mpr hc⟩
    | cons c q =>
      simp only [resolveAux] at h
      exact Except.noConfusion h
  | succ d ih =>
    intro queue visited res h
    cases queue with
    | nil =>
      simp only [resolveAux, Except.ok.injEq] at h
      subst h
      exact ⟨fun c hc => absurd hc (List.not_mem_nil c),
        fun c hc => List.mem_reverse.mpr hc⟩
    | cons c q =>
      simp only [resolveAux] at h
      by_cases hc : c ∈ visited
      · rw [if_pos hc] at h
        obtain ⟨hq, hv⟩ := ih q visited res h
        refine ⟨?_, hv⟩
        intro x hx
        rcases List.mem_cons.mp hx with rfl | hx2
        · exact hv _ hc
        · exact hq _ hx2
      · rw [if_neg hc] at h
        cases hg : env.get c with
        | none =>
          simp only [hg] at h
          exact Except.noConfusion h
        | some bd =>
          simp only [hg] at h
          cases hf : extractorFor c.codec with
          | none =>
            simp only [hf] at h
            exact Except.noConfusion h
          | some f =>
            simp only [hf] at h
            obtain ⟨hq, hv⟩ := ih _ _ _ h
            refine ⟨?_, ?_⟩
            · intro x hx
              rcases List.mem_cons.mp hx with rfl | hx2
              · exact hv _ (List.mem_cons_self _ _)
              · exact hq _ (List.mem_append.mpr (Or.inl hx2))
            · intro x hx
              exact hv _ (List.mem_cons_of_mem _ hx)

theorem resolveAux_closed (env : Env) :
    ∀ (d : Nat) (queue visited res : List CID),
      resolveAux env d queue visited = Except.ok res →
      ∀ x, x ∈ res → x ∉ visited →
        env.has x = true ∧ (extractorFor x.codec).isSome = true ∧
          ∀ y, y ∈ env.childLinks x → y ∈ res := by
  intro d
  induction d with
  | zero =>
    intro queue visited res h x hxres hxvis
    cases queue with
    | nil =>
      simp only [resolveAux, Except.ok.injEq] at h
      subst h
      exact absurd (List.mem_reverse.mp hxres) hxvis
    | cons c q =>
      simp only [resolveAux] at h
      exact Except.noConfusion h
  | succ d ih =>
    intro queue visited res h x hxres hxvis
    cases queue with
    | nil =>
      simp only [resolveAux, Except.ok.injEq] at h
      subst h
      exact absurd (List.mem_reverse.mp hxres) hxvis
    | cons c q =>
      simp only [resolveAux] at h
      by_cases hc : c ∈ visited
      · rw [if_pos hc] at h
        exact ih q visited res h x hxres hxvis
      · rw [if_neg hc] at h
        cases hg : env.get c with
        | none =>
          simp only [hg] at h
          exact Except.noConfusion h
        | some bd =>
          simp only [hg] at h
          cases hf : extractorFor c.codec with
          | none =>
            simp only [hf] at h
            exact Except.noConfusion h
          | some f =>
            simp only [hf] at h
            by_cases hxc : x = c
            · subst hxc
              refine ⟨by simp [Env.has, hg], by simp [hf], ?_⟩
              intro y hy
              simp only [Env.childLinks, hg, hf] at hy
              exact (resolveAux_subset env d _ _ res h).1 y
                (List.mem_append.mpr (Or.inr hy))
            · refine ih _ _ _ h x hxres ?_
              intro hmem
              rcases List.mem_cons.mp hmem with h1 | h1
              · exact hxc h1
              · exact hxvis h1

theorem resolve_complete (env : Env) (d : Nat) (root : CID) (res : List CID)
    (h : Resolve env d root = Except.ok res) :
    ∀ x, Reaches env root x → x ∈ res := by
  intro x hx
  induction hx with
  | refl => exact (resolveAux_subset env d [root] [] res h).1 root (List.mem_cons_self _ _)
  | step hy hmem ih =>
    exact (resolveAux_closed env d [root] [] res h _ ih (List.not_mem_nil _)).2.2 _ hmem

theorem resolve_present (env : Env) (d : Nat) (root : CID) (res : List CID)
    (h : Resolve env d root = Except.ok res) :
    ∀ x, x ∈ res → env.has x = true := fun x hx =>
  (resolveAux_closed env d [root] [] res h x hx (List.not_mem_nil x)).1

theorem resolveAux_error_shape (env : Env) :
    ∀ (d : Nat) (queue visited : List CID) (e : PinError),
      resolveAux env d queue visited = Except.error e →
      (∃ c, e = PinError.BlockNotFound c) ∨ (∃ k, e = PinError.UnsupportedCodec k) ∨
        e = PinError.DeadlineExceeded := by
  intro d
  induction d with
  | zero =>
    intro queue visited e h
    cases queue with
    | nil =>
      simp only [resolveAux] at h
      exact Except.noConfusion h
    | cons c q =>
      simp only [resolveAux, Except.error.injEq] at h
      exact Or.inr (Or.inr h.symm)
  | succ d ih =>
    intro queue visited e h
    cases queue with
    | nil =>
      simp only [resolveAux] at h
      exact Except.noConfusion h
    | cons c q =>
      simp only [resolveAux] at h
      by_cases hc : c ∈ visited
      · rw [if_pos hc] at h
        exact ih q visited e h
      · rw [if_neg hc] at h
        cases hg : env.get c with
        | none =>
          simp only [hg, Except.error.injEq] at h
          exact Or.inl ⟨c, h.symm⟩
        | some bd =>
          simp only [hg] at h
          cases hf : extractorFor c.codec with
          | none =>
            simp only [hf, Except.error.injEq] at h
            exact Or.inr (Or.inl ⟨c.codec, h.symm⟩)
          | some f =>
            simp only [hf] at h
            exact ih _ _ e h

theorem resolveAux_notfound (env : Env) (root : CID) :
    ∀ (d : Nat) (queue visited : List CID) (b : CID),
      (∀ c, c ∈ queue → Reaches env root c) →
      resolveAux env d queue visited = Except.error (PinError.BlockNotFound b) →
      Reaches env root b ∧ env.has b = false := by
  intro d
  induction d with
  | zero =>
    intro queue visited b hq h
    cases queue with
    | nil =>
      simp only [resolveAux] at h
      exact Except.noConfusion h
    | cons c q =>
      simp only [resolveAux, Except.error.injEq] at h
      exact PinError.noConfusion h
  | succ d ih =>
    intro queue visited b hq h
    cases queue with
    | nil =>
      simp only [resolveAux] at h
      exact Except.noConfusion h
    | cons c q =>
      simp only [resolveAux] at h
      by_cases hc : c ∈ visited
      · rw [if_pos hc] at h
        exact ih q visited b (fun x hx => hq x (List.mem_cons_of_mem _ hx)) h
      · rw [if_neg hc] at h
        cases hg : env.get c with
        | none =>
          simp only [hg, Except.error.injEq, PinError.BlockNotFound.injEq] at h
          subst h
          exact ⟨hq c (List.mem_cons_self _ _), by simp [Env.has, hg]⟩
        | some bd =>
          simp only [hg] at h
          cases hf : extractorFor c.codec with
          | none =>
            simp only [hf, Except.error.injEq] at h
            exact PinError.noConfusion h
          | some f =>
            simp only [hf] at h
            refine ih _ _ b ?_ h
            intro x hx
            rcases List.mem_append.mp hx with hx2 | hx2
            · exact hq x (List.mem_cons_of_mem _ hx2)
            · refine Reaches.step (hq c (List.mem_cons_self _ _)) ?_
              simp only [Env.childLinks, hg, hf]
              exact hx2

theorem resolveAux_unsupported (env : Env) (root : CID) :
    ∀ (d : Nat) (queue visited : List CID) (k : Nat),
      (∀ c, c ∈ queue → Reaches env root c) →
      resolveAux env d queue visited = Except.error (PinError.UnsupportedCodec k) →
      ∃ c, Reaches env root c ∧ (∃ bd, env.get c = some bd) ∧
        extractorFor c.codec = none := by
  intro d
  induction d with
  | zero =>
    intro queue visited k hq h
    cases queue with
    | nil =>
      simp only [resolveAux] at h
      exact Except.noConfusion h
    | cons c q =>
      simp only [resolveAux, Except.error.injEq] at h
      exact PinError.noConfusion h
  | succ d ih =>
    intro queue visited k hq h
    cases queue with
    | nil =>
      simp only [resolveAux] at h
      exact Except.noConfusion h
    | cons c q =>
      simp only [resolveAux] at h
      by_cases hc : c ∈ visited
      · rw [if_pos hc] at h
        exact ih q visited k (fun x hx => hq x (List.mem_cons_of_mem _ hx)) h
      · rw [if_neg hc] at h
        cases hg : env.get c with
        | none =>
          simp only [hg, Except.error.injEq] at h
          exact PinError.noConfusion h
        | some bd =>
          simp only [hg] at h
          cases hf : extractorFor c.codec with
          | none =>
            exact ⟨c, hq c (List.mem_cons_self _ _), ⟨bd, hg⟩, hf⟩
          | some f =>
            simp only [hf] at h
            refine ih _ _ k ?_ h
            intro x hx
            rcases List.mem_append.mp hx with hx2 | hx2
            · exact hq x (List.mem_cons_of_mem _ hx2)
            · refine Reaches.step (hq c (List.mem_cons_self _ _)) ?_
              simp only [Env.childLinks, hg, hf]
              exact hx2

theorem supported_of_get (env : Env) (c : CID) (bd : BlockData)
    (hcodec : env.store.all (fun p => (extractorFor p.1.codec).isSome) = true)
    (h : env.get c = some bd) : (extractorFor c.codec).isSome = true := by
  unfold Env.get at h
  cases hf : env.store.find? (fun p => decide (p.1 = c)) with
  | none => rw [hf] at h; exact Option.noConfusion h
  | some p =>
    have hpc := List.find?_some hf
    simp only [decide_eq_true_eq] at hpc
    have hpm : p ∈ env.store := List.mem_of_find?_eq_some hf
    have := List.all_eq_true.mp hcodec p hpm
    rwa [hpc] at this

theorem put_recursive_mem (ps : PinSet) (c : CID) :
    c ∈ (ps.put c StoredKind.Recursive).recursive := by
  unfold PinSet.put
  by_cases h : c ∈ ps.recursive
  · rw [if_pos h]; exact h
  · rw [if_neg h]; simp

theorem put_recursive_direct (ps : PinSet) (c : CID) :
    (ps.put c StoredKind.Recursive).direct = ps.direct := by
  unfold PinSet.put
  by_cases h : c ∈ ps.recursive
  · rw [if_pos h]
  · rw [if_neg h]

theorem put_direct_recursive (ps : PinSet) (c : CID) :
    (ps.put c StoredKind.Direct).recursive = ps.recursive := by
  unfold PinSet.put
  by_cases h : c ∈ ps.direct
  · rw [if_pos h]
  · rw [if_neg h]

theorem put_direct_mem (ps : PinSet) (c : CID) :
    c ∈ (ps.put c StoredKind.Direct).direct := by
  unfold PinSet.put
  by_cases h : c ∈ ps.direct
  · rw [if_pos h]; exact h
  · rw [if_neg h]; simp

theorem put_recursive_noop (ps : PinSet) (c : CID) (h : c ∈ ps.recursive) :
    ps.put c StoredKind.Recursive = ps := by
  unfold PinSet.put
  rw [if_pos h]

theorem put_direct_mem_other (ps : PinSet) (c x : CID) (h : x ≠ c) :
    (x ∈ (ps.put c StoredKind.Direct).direct) ↔ x ∈ ps.direct := by
  unfold PinSet.put
  by_cases hc : c ∈ ps.direct
  · rw [if_pos hc]
  · rw [if_neg hc]
    simp [h]

theorem isIndirect_congr (ps ps2 : PinSet) (env : Env) (d : Nat)
    (h : ps.recursive = ps2.recursive) :
    ∀ x, ps.isIndirect env d x = ps2.isIndirect env d x := by
  intro x
  unfold PinSet.isIndirect
  rw [h]

theorem addAll_single_recursive_ok (env : Env) (d : Nat) (ps : PinSet) (R : CID)
    (res : List CID) (hres : Resolve env d R = Except.ok res) :
    addAll env d true ps [Descriptor.bare R] =
      ⟨[R], ps.put R StoredKind.Recursive, none⟩ := by
  simp [addAll, Descriptor.normalize, addOne, hres]

theorem addAll_single_recursive_err (env : Env) (d : Nat) (ps : PinSet) (R : CID)
    (e : PinError) (hres : Resolve env d R = Except.error e) :
    addAll env d true ps [Descriptor.bare R] = ⟨[], ps, some e⟩ := by
  simp [addAll, Descriptor.normalize, addOne, hres]

theorem addAll_single_direct (env : Env) (d : Nat) (ps : PinSet) (c : CID)
    (h : c ∉ ps.recursive) :
    addAll env d true ps [Descriptor.withOpts c false] =
      ⟨[c], ps.put c StoredKind.Direct, none⟩ := by
  simp [addAll, Descriptor.normalize, addOne, h]

theorem addAll_single_direct_conflict (env : Env) (d : Nat) (ps : PinSet) (c : CID)
    (h : c ∈ ps.recursive) :
    addAll env d true ps [Descriptor.withOpts c false] =
      ⟨[], ps, some (PinError.AlreadyPinnedRecursively c)⟩ := by
  simp [addAll, Descriptor.normalize, addOne, h]

theorem singleton_reaches (env : Env) (R : CID) :
    ∀ c, c ∈ [R] → Reaches env R c := by
  intro c hc
  rcases List.mem_cons.mp hc with rfl | h2
  · exact Reaches.refl
  · exact absurd h2 (List.not_mem_nil c)

theorem resolve_deadline_zero (env : Env) (R : CID) :
    Resolve env 0 R = Except.error PinError.DeadlineExceeded := rfl

theorem resolve_absent_root (env : Env) (k : Nat) (R : CID)
    (hget : env.get R = none) :
    Resolve env (k + 1) R = Except.error (PinError.BlockNotFound R) := by
  unfold Resolve
  simp [resolveAux, hget]

theorem listPins_recursive_mem (env : Env) (d : Nat) (ps : PinSet) (R : CID)
    (hR : R ∈ ps.recursive) : (R, PinKind.Recursive) ∈ listPins env d ps := by
  unfold listPins
  exact List.mem_append.mpr (Or.inl (List.mem_append.mpr (Or.inl
    (List.mem_map.mpr ⟨R, hR, rfl⟩))))

theorem listPins_indirect_mem (env : Env) (d : Nat) (ps : PinSet) (R x : CID)
    (res : List CID) (hR : R ∈ ps.recursive) (hres : Resolve env d R = Except.ok res)
    (hx : x ∈ res) (hxR : x ≠ R) :
    (x, PinKind.Indirect) ∈ listPins env d ps := by
  unfold listPins
  refine List.mem_append.mpr (Or.inr ?_)
  refine List.mem_map.mpr ⟨x, ?_, rfl⟩
  refine List.mem_dedup.mpr ?_
  refine List.mem_flatten.mpr ⟨indirectsUnder env d R, List.mem_map.mpr ⟨R, hR, rfl⟩, ?_⟩
  unfold indirectsUnder
  rw [hres]
  exact List.mem_filter.mpr ⟨hx, by simp [hxR]⟩

theorem isIndirect_of_root (env : Env) (d : Nat) (ps : PinSet) (R x : CID)
    (res : List CID) (hR : R ∈ ps.recursive) (hres : Resolve env d R = Except.ok res)
    (hx : x ∈ res) (hxR : x ≠ R) : ps.isIndirect env d x = true := by
  unfold PinSet.isIndirect
  refine List.any_eq_true.mpr ⟨R, hR, ?_⟩
  simp only [hres]
  simp [hx, hxR]

theorem childLinks_structured (env : Env) (p : CID) (v : IpldValue)
    (hg : env.get p = some (BlockData.structured v)) (hc : p.codec = dagCborCodec) :
    env.childLinks p = collectLinks v := by
  unfold Env.childLinks
  rw [hg, hc]
  simp only [extractorFor, rawCodec, dagPbCodec, dagCborCodec]
  norm_num
  have h1 : dagCborExtract (BlockData.structured v)
      = (collectLinks v).map (fun c => ({ name := none, target := c } : Link)) := rfl
  have h2 : (Link.target ∘ fun c => ({ name := none, target := c } : Link)) = id := rfl
  rw [h1, List.map_map, h2, List.map_id]

/-- C1: for every root `R` whose entire link-closure resolves (a successful
recursive Add), the Add succeeds, `R` is listed as Recursive by `listPins`
and reported Recursive by `isPinned`, and every CID in `R`'s link-closure
other than `R` itself is listed as Indirect and reported Indirect by
`isPinned`. -/
theorem C1_recursive_add_lists_closure (env : Env) (d : Nat) (ps : PinSet)
    (R : CID) (res : List CID) (hres : Resolve env d R = Except.ok res)
    (x : CID) (hx : Reaches env R x) (hxR : x ≠ R) :
    (addAll env d true ps [Descriptor.bare R]).error = none ∧
    (R, PinKind.Recursive) ∈
      listPins env d (addAll env d true ps [Descriptor.bare R]).pinset ∧
    (addAll env d true ps [Descriptor.bare R]).pinset.isPinned env d R
      PinKind.Recursive = true ∧
    (x, PinKind.Indirect) ∈
      listPins env d (addAll env d true ps [Descriptor.bare R]).pinset ∧
    (addAll env d true ps [Descriptor.bare R]).pinset.isPinned env d x
      PinKind.Indirect = true := by
  rw [addAll_single_recursive_ok env d ps R res hres]
  have hmem : R ∈ (ps.put R StoredKind.Recursive).recursive := put_recursive_mem ps R
  have hxres : x ∈ res := resolve_complete env d R res hres x hx
  refine ⟨rfl, listPins_recursive_mem env d _ R hmem, ?_,
    listPins_indirect_mem env d _ R x res hmem hres hxres hxR, ?_⟩
  · simp [PinSet.isPinned, hmem]
  · simp only [PinSet.isPinned]
    exact isIndirect_of_root env d _ R x res hmem hres hxres hxR

/-- C1 witness: the directory fixture, with leaf `cidA` in the closure of
root `cidR`. -/
theorem C1_witness :
    Resolve envDir 10 cidR = Except.ok [cidR, cidA, cidB] ∧
    Reaches envDir cidR cidA ∧ cidA ≠ cidR ∧
    ((addAll envDir 10 true PinSet.empty [Descriptor.bare cidR]).error = none ∧
    (cidR, PinKind.Recursive) ∈
      listPins envDir 10 (addAll envDir 10 true PinSet.empty [Descriptor.bare cidR]).pinset ∧
    (addAll envDir 10 true PinSet.empty [Descriptor.bare cidR]).pinset.isPinned envDir 10 cidR
      PinKind.Recursive = true ∧
    (cidA, PinKind.Indirect) ∈
      listPins envDir 10 (addAll envDir 10 true PinSet.empty [Descriptor.bare cidR]).pinset ∧
    (addAll envDir 10 true PinSet.empty [Descriptor.bare cidR]).pinset.isPinned envDir 10 cidA
      PinKind.Indirect = true) :=
  ⟨rfl, Reaches.step Reaches.refl (by decide), by decide,
    C1_recursive_add_lists_closure envDir 10 PinSet.empty cidR [cidR, cidA, cidB] rfl
      cidA (Reaches.step Reaches.refl (by decide)) (by decide)⟩

/-- C2: when some block in `R`'s link-closure is absent (with every stored
block's codec supported and the deadline not the failing cause), the
recursive Add of `R` fails with `BlockNotFound` at an absent reachable
block, commits nothing, and `R` has no entry in the Pin Set afterwards. -/
theorem C2_missing_block_atomic (env : Env) (d : Nat) (ps : PinSet) (R : CID)
    (hcodec : env.store.all (fun p => (extractorFor p.1.codec).isSome) = true)
    (habs : ∃ x, Reaches env R x ∧ env.has x = false)
    (hnd : Resolve env d R ≠ Except.error PinError.DeadlineExceeded)
    (hRd : R ∉ ps.direct) (hRr : R ∉ ps.recursive) :
    (∃ b, (addAll env d true ps [Descriptor.bare R]).error
        = some (PinError.BlockNotFound b) ∧ Reaches env R b ∧ env.has b = false) ∧
    (addAll env d true ps [Descriptor.bare R]).pinset = ps ∧
    R ∉ (addAll env d true ps [Descriptor.bare R]).pinset.direct ∧
    R ∉ (addAll env d true ps [Descriptor.bare R]).pinset.recursive := by
  obtain ⟨x, hxr, hxa⟩ := habs
  cases hres : Resolve env d R with
  | ok res =>
    have hp := resolve_present env d R res hres x (resolve_complete env d R res hres x hxr)
    rw [hp] at hxa
    exact Bool.noConfusion hxa
  | error e =>
    have hres2 : resolveAux env d [R] [] = Except.error e := hres
    rcases resolveAux_error_shape env d [R] [] e hres2 with ⟨b, rfl⟩ | ⟨k, rfl⟩ | rfl
    · have hb := resolveAux_notfound env R d [R] [] b (singleton_reaches env R) hres2
      rw [addAll_single_recursive_err env d ps R _ hres]
      exact ⟨⟨b, rfl, hb.1, hb.2⟩, rfl, hRd, hRr⟩
    · obtain ⟨c, hcr, ⟨bd, hg⟩, hf⟩ :=
        resolveAux_unsupported env R d [R] [] k (singleton_reaches env R) hres2
      have hs := supported_of_get env c bd hcodec hg
      rw [hf] at hs
      exact Bool.noConfusion hs
    · exact absurd hres hnd

/-- C2 witness: the fixture store missing leaf `cidA` under root `cidR`. -/
theorem C2_witness :
    envMissing.store.all (fun p => (extractorFor p.1.codec).isSome) = true ∧
    (∃ x, Reaches envMissing cidR x ∧ envMissing.has x = false) ∧
    Resolve envMissing 10 cidR ≠ Except.error PinError.DeadlineExceeded ∧
    cidR ∉ PinSet.empty.direct ∧ cidR ∉ PinSet.empty.recursive ∧
    ((∃ b, (addAll envMissing 10 true PinSet.empty [Descriptor.bare cidR]).error
        = some (PinError.BlockNotFound b) ∧ Reaches envMissing cidR b ∧
        envMissing.has b = false) ∧
    (addAll envMissing 10 true PinSet.empty [Descriptor.bare cidR]).pinset = PinSet.empty ∧
    cidR ∉ (addAll envMissing 10 true PinSet.empty [Descriptor.bare cidR]).pinset.direct ∧
    cidR ∉ (addAll envMissing 10 true PinSet.empty [Descriptor.bare cidR]).pinset.recursive) := by
  have hnd : Resolve envMissing 10 cidR ≠ Except.error PinError.DeadlineExceeded := by
    rw [show Resolve envMissing 10 cidR
        = Except.error (PinError.BlockNotFound cidA) from rfl]
    simp
  refine ⟨by decide, ⟨cidA, Reaches.step Reaches.refl (by decide), rfl⟩, hnd,
    by simp [PinSet.empty], by simp [PinSet.empty], ?_⟩
  exact C2_missing_block_atomic envMissing 10 PinSet.empty cidR (by decide)
    ⟨cidA, Reaches.step Reaches.refl (by decide), rfl⟩ hnd
    (by simp [PinSet.empty]) (by simp [PinSet.empty])

/-- C3: a Direct Add of a CID that is currently a Recursive root fails with
`AlreadyPinnedRecursively` and leaves the Pin Set unchanged, emitting no
confirmation. -/
theorem C3_direct_on_recursive_fails (env : Env) (d : Nat) (ps : PinSet) (R : CID)
    (h : R ∈ ps.recursive) :
    (addAll env d true ps [Descriptor.withOpts R false]).error
        = some (PinError.AlreadyPinnedRecursively R) ∧
    (addAll env d true ps [Descriptor.withOpts R false]).pinset = ps ∧
    (addAll env d true ps [Descriptor.withOpts R false]).emitted = [] := by
  rw [addAll_single_direct_conflict env d ps R h]
  exact ⟨rfl, rfl, rfl⟩

/-- C3 witness: `cidR` already a Recursive root in the Pin Set. -/
theorem C3_witness :
    cidR ∈ (⟨[], [cidR]⟩ : PinSet).recursive ∧
    ((addAll envDir 10 true ⟨[], [cidR]⟩ [Descriptor.withOpts cidR false]).error
        = some (PinError.AlreadyPinnedRecursively cidR) ∧
    (addAll envDir 10 true ⟨[], [cidR]⟩ [Descriptor.withOpts cidR false]).pinset
        = ⟨[], [cidR]⟩ ∧
    (addAll envDir 10 true ⟨[], [cidR]⟩ [Descriptor.withOpts cidR false]).emitted = []) :=
  ⟨by simp, C3_direct_on_recursive_fails envDir 10 ⟨[], [cidR]⟩ cidR (by simp)⟩

/-- C4: a Direct-pinned CID `A` inside the closure of a later successfully
Recursive-pinned root `R` is reported both Direct and Indirect at once, and
the stored Direct entries are untouched by the recursive Add. -/
theorem C4_direct_and_indirect_coexist (env : Env) (d : Nat) (ps : PinSet)
    (A R : CID) (res : List CID)
    (hA : A ∈ ps.direct) (hres : Resolve env d R = Except.ok res)
    (hreach : Reaches env R A) (hAR : A ≠ R) :
    (addAll env d true ps [Descriptor.bare R]).error = none ∧
    (addAll env d true ps [Descriptor.bare R]).pinset.isPinned env d A
      PinKind.Direct = true ∧
    (addAll env d true ps [Descriptor.bare R]).pinset.isPinned env d A
      PinKind.Indirect = true ∧
    (addAll env d true ps [Descriptor.bare R]).pinset.direct = ps.direct := by
  rw [addAll_single_recursive_ok env d ps R res hres]
  have hmem := put_recursive_mem ps R
  have hAres := resolve_complete env d R res hres A hreach
  have hAdir : A ∈ (ps.put R StoredKind.Recursive).direct := by
    rw [put_recursive_direct]
    exact hA
  refine ⟨rfl, by simp [PinSet.isPinned, hAdir], ?_, put_recursive_direct ps R⟩
  simp only [PinSet.isPinned]
  exact isIndirect_of_root env d _ R A res hmem hres hAres hAR

/-- C4 witness: `cidA` Direct-pinned, then root `cidR` (whose closure holds
`cidA`) Recursive-pinned. -/
theorem C4_witness :
    cidA ∈ (⟨[cidA], []⟩ : PinSet).direct ∧
    Resolve envDir 10 cidR = Except.ok [cidR, cidA, cidB] ∧
    Reaches envDir cidR cidA ∧ cidA ≠ cidR ∧
    ((addAll envDir 10 true ⟨[cidA], []⟩ [Descriptor.bare cidR]).error = none ∧
    (addAll envDir 10 true ⟨[cidA], []⟩ [Descriptor.bare cidR]).pinset.isPinned envDir 10 cidA
      PinKind.Direct = true ∧
    (addAll envDir 10 true ⟨[cidA], []⟩ [Descriptor.bare cidR]).pinset.isPinned envDir 10 cidA
      PinKind.Indirect = true ∧
    (addAll envDir 10 true ⟨[cidA], []⟩ [Descriptor.bare cidR]).pinset.direct
        = (⟨[cidA], []⟩ : PinSet).direct) :=
  ⟨by simp, rfl, Reaches.step Reaches.refl (by decide), by decide,
    C4_direct_and_indirect_coexist envDir 10 ⟨[cidA], []⟩ cidA cidR [cidR, cidA, cidB]
      (by simp) rfl (Reaches.step Reaches.refl (by decide)) (by decide)⟩

/-- C5: recursive Add is idempotent — both calls succeed and the Pin Set
after the second call equals the Pin Set after the first. -/
theorem C5_add_idempotent (env : Env) (d : Nat) (ps : PinSet) (R : CID)
    (res : List CID) (hres : Resolve env d R = Except.ok res) :
    (addAll env d true ps [Descriptor.bare R]).error = none ∧
    (addAll env d true (addAll env d true ps [Descriptor.bare R]).pinset
        [Descriptor.bare R]).error = none ∧
    (addAll env d true (addAll env d true ps [Descriptor.bare R]).pinset
        [Descriptor.bare R]).pinset
      = (addAll env d true ps [Descriptor.bare R]).pinset := by
  rw [addAll_single_recursive_ok env d ps R res hres]
  rw [addAll_single_recursive_ok env d _ R res hres]
  refine ⟨rfl, rfl, ?_⟩
  exact put_recursive_noop _ _ (put_recursive_mem ps R)

/-- C5 witness: pinning the directory root twice over the directory store. -/
theorem C5_witness :
    Resolve envDir 10 cidR = Except.ok [cidR, cidA, cidB] ∧
    ((addAll envDir 10 true PinSet.empty [Descriptor.bare cidR]).error = none ∧
    (addAll envDir 10 true (addAll envDir 10 true PinSet.empty [Descriptor.bare cidR]).pinset
        [Descriptor.bare cidR]).error = none ∧
    (addAll envDir 10 true (addAll envDir 10 true PinSet.empty [Descriptor.bare cidR]).pinset
        [Descriptor.bare cidR]).pinset
      = (addAll envDir 10 true PinSet.empty [Descriptor.bare cidR]).pinset) :=
  ⟨rfl, C5_add_idempotent envDir 10 PinSet.empty cidR [cidR, cidA, cidB] rfl⟩

/-- C6: an Add whose closure resolution exceeds the supplied deadline fails
with `DeadlineExceeded` and commits nothing. -/
theorem C6_deadline_commits_nothing (env : Env) (d : Nat) (ps : PinSet) (R : CID)
    (h : Resolve env d R = Except.error PinError.DeadlineExceeded) :
    (addAll env d true ps [Descriptor.bare R]).error
        = some PinError.DeadlineExceeded ∧
    (addAll env d true ps [Descriptor.bare R]).pinset = ps := by
  rw [addAll_single_recursive_err env d ps R _ h]
  exact ⟨rfl, rfl⟩

/-- C6 witness: deadline 0 expires before the root visit of `cidR`. -/
theorem C6_witness :
    Resolve envDir 0 cidR = Except.error PinError.DeadlineExceeded ∧
    ((addAll envDir 0 true PinSet.empty [Descriptor.bare cidR]).error
        = some PinError.DeadlineExceeded ∧
    (addAll envDir 0 true PinSet.empty [Descriptor.bare cidR]).pinset = PinSet.empty) :=
  ⟨rfl, C6_deadline_commits_nothing envDir 0 PinSet.empty cidR rfl⟩

/-- C7: a Direct Add of `D` (not currently a Recursive root) succeeds, pins
exactly `D` as Direct, and is a frame: the Recursive entries, the Direct
membership of every other CID, and the derived Indirect status of every CID
are unchanged. -/
theorem C7_direct_pin_frame (env : Env) (d : Nat) (ps : PinSet) (D : CID)
    (h : D ∉ ps.recursive) :
    (addAll env d true ps [Descriptor.withOpts D false]).error = none ∧
    (addAll env d true ps [Descriptor.withOpts D false]).emitted = [D] ∧
    D ∈ (addAll env d true ps [Descriptor.withOpts D false]).pinset.direct ∧
    (addAll env d true ps [Descriptor.withOpts D false]).pinset.recursive
        = ps.recursive ∧
    (∀ x, x ≠ D →
      ((x ∈ (addAll env d true ps [Descriptor.withOpts D false]).pinset.direct)
        ↔ x ∈ ps.direct)) ∧
    (∀ x, (addAll env d true ps [Descriptor.withOpts D false]).pinset.isIndirect env d x
      = ps.isIndirect env d x) := by
  rw [addAll_single_direct env d ps D h]
  refine ⟨rfl, rfl, put_direct_mem ps D, put_direct_recursive ps D, ?_, ?_⟩
  · intro x hx
    exact put_direct_mem_other ps D x hx
  · exact isIndirect_congr _ ps env d (put_direct_recursive ps D)

/-- C7 witness: Direct-pinning the directory root into an empty Pin Set. -/
theorem C7_witness :
    cidR ∉ PinSet.empty.recursive ∧
    ((addAll envDir 10 true PinSet.empty [Descriptor.withOpts cidR false]).error = none ∧
    (addAll envDir 10 true PinSet.empty [Descriptor.withOpts cidR false]).emitted = [cidR] ∧
    cidR ∈ (addAll envDir 10 true PinSet.empty [Descriptor.withOpts cidR false]).pinset.direct ∧
    (addAll envDir 10 true PinSet.empty [Descriptor.withOpts cidR false]).pinset.recursive
        = PinSet.empty.recursive ∧
    (∀ x, x ≠ cidR →
      ((x ∈ (addAll envDir 10 true PinSet.empty [Descriptor.withOpts cidR false]).pinset.direct)
        ↔ x ∈ PinSet.empty.direct)) ∧
    (∀ x, (addAll envDir 10 true PinSet.empty
        [Descriptor.withOpts cidR false]).pinset.isIndirect envDir 10 x
      = PinSet.empty.isIndirect envDir 10 x)) :=
  ⟨by simp [PinSet.empty], C7_direct_pin_frame envDir 10 PinSet.empty cidR
    (by simp [PinSet.empty])⟩

/-- C8: link extraction crosses codecs — a structured-data (CBOR-like)
parent's embedded CID values are its extracted (unnamed) links, so after a
successful recursive Add of such a parent a different-codec child embedded
in it is listed and reported as Indirect. -/
theorem C8_cross_codec_links (env : Env) (d : Nat) (ps : PinSet)
    (parent child : CID) (v : IpldValue) (res : List CID)
    (hg : env.get parent = some (BlockData.structured v))
    (hc : parent.codec = dagCborCodec)
    (hchild : child ∈ collectLinks v)
    (_hdiff : child.codec ≠ parent.codec)
    (hres : Resolve env d parent = Except.ok res)
    (hne : child ≠ parent) :
    env.childLinks parent = collectLinks v ∧
    (addAll env d true ps [Descriptor.bare parent]).error = none ∧
    (child, PinKind.Indirect) ∈
      listPins env d (addAll env d true ps [Descriptor.bare parent]).pinset ∧
    (addAll env d true ps [Descriptor.bare parent]).pinset.isPinned env d child
      PinKind.Indirect = true := by
  have hcl : child ∈ env.childLinks parent := by
    rw [childLinks_structured env parent v hg hc]
    exact hchild
  have hcres : child ∈ res := resolve_complete env d parent res hres child
    (Reaches.step Reaches.refl hcl)
  rw [addAll_single_recursive_ok env d ps parent res hres]
  have hmem := put_recursive_mem ps parent
  refine ⟨childLinks_structured env parent v hg hc, rfl,
    listPins_indirect_mem env d _ parent child res hmem hres hcres hne, ?_⟩
  simp only [PinSet.isPinned]
  exact isIndirect_of_root env d _ parent child res hmem hres hcres hne

/-- C8 witness: a dag-cbor parent embedding the CID of a dag-pb child. -/
theorem C8_witness :
    envCbor.get cidParent
        = some (BlockData.structured (.mapV [("child", .link cidChild)])) ∧
    cidParent.codec = dagCborCodec ∧
    cidChild ∈ collectLinks (.mapV [("child", .link cidChild)]) ∧
    cidChild.codec ≠ cidParent.codec ∧
    Resolve envCbor 10 cidParent = Except.ok [cidParent, cidChild] ∧
    cidChild ≠ cidParent ∧
    (envCbor.childLinks cidParent = collectLinks (.mapV [("child", .link cidChild)]) ∧
    (addAll envCbor 10 true PinSet.empty [Descriptor.bare cidParent]).error = none ∧
    (cidParent, PinKind.Recursive) ∈
      listPins envCbor 10 (addAll envCbor 10 true PinSet.empty
        [Descriptor.bare cidParent]).pinset ∧
    (cidChild, PinKind.Indirect) ∈
      listPins envCbor 10 (addAll envCbor 10 true PinSet.empty
        [Descriptor.bare cidParent]).pinset ∧
    (addAll envCbor 10 true PinSet.empty [Descriptor.bare cidParent]).pinset.isPinned
      envCbor 10 cidChild PinKind.Indirect = true) := by
  have h8 := C8_cross_codec_links envCbor 10 PinSet.empty cidParent cidChild
    (.mapV [("child", .link cidChild)]) [cidParent, cidChild]
    rfl rfl (by decide) (by decide) rfl (by decide)
  refine ⟨rfl, rfl, by decide, by decide, rfl, by decide,
    h8.1, h8.2.1, ?_, h8.2.2.1, h8.2.2.2⟩
  exact listPins_recursive_mem envCbor 10 _ cidParent
    (put_recursive_mem PinSet.empty cidParent)

/-- C9: for every finite normalized batch, a successful Add emits exactly
one confirmation per item — that item's CID — in input order. -/
theorem C9_batch_emission_order (env : Env) (d : Nat) (dflt : Bool) :
    ∀ (descs : List Descriptor) (ps : PinSet),
      (addAll env d dflt ps descs).error = none →
      (addAll env d dflt ps descs).emitted
        = descs.map (fun de => (de.normalize dflt).1) := by
  intro descs
  induction descs with
  | nil =>
    intro ps _
    rfl
  | cons de rest ih =>
    intro ps h
    cases hone : addOne env d ps (de.normalize dflt).1 (de.normalize dflt).2 with
    | error e =>
      simp only [addAll, hone] at h
      exact Option.noConfusion h
    | ok ps2 =>
      simp only [addAll, hone] at h ⊢
      simp only [List.map_cons, List.cons.injEq]
      exact ⟨trivial, ih ps2 h⟩

/-- C9 witness: a two-item batch (a bare CID and a `{cid, recursive}`
descriptor) over the directory store. -/
theorem C9_witness :
    (addAll envDir 10 true PinSet.empty
        [Descriptor.bare cidA, Descriptor.withOpts cidB false]).error = none ∧
    (addAll envDir 10 true PinSet.empty
        [Descriptor.bare cidA, Descriptor.withOpts cidB false]).emitted
      = [Descriptor.bare cidA, Descriptor.withOpts cidB false].map
          (fun de => (de.normalize true).1) :=
  ⟨rfl, C9_batch_emission_order envDir 10 true
    [Descriptor.bare cidA, Descriptor.withOpts cidB false] PinSet.empty rfl⟩

/-- C10 counterexample: in the spec model, an Add of a single CID absent
from the store fails promptly with `BlockNotFound` under an ample deadline —
not by holding on until the deadline and surfacing the timeout error. -/
theorem C10_counterexample :
    (addAll envEmpty 5 true PinSet.empty [Descriptor.bare cidR]).error
        = some (PinError.BlockNotFound cidR) ∧
    (addAll envEmpty 5 true PinSet.empty [Descriptor.bare cidR]).error
        ≠ some PinError.DeadlineExceeded := by
  refine ⟨rfl, ?_⟩
  intro h
  rw [show (addAll envEmpty 5 true PinSet.empty [Descriptor.bare cidR]).error
      = some (PinError.BlockNotFound cidR) from rfl] at h
  simp at h

/-- C10 amended: an Add of a single CID whose block is absent fails with
`BlockNotFound` as soon as the deadline admits the first visit; only a
deadline that expires before that visit yields `DeadlineExceeded`. -/
theorem C10_absent_block_prompt_failure (env : Env) (d : Nat) (ps : PinSet)
    (R : CID) (hget : env.get R = none) :
    (0 < d → (addAll env d true ps [Descriptor.bare R]).error
        = some (PinError.BlockNotFound R)) ∧
    (addAll env 0 true ps [Descriptor.bare R]).error
        = some PinError.DeadlineExceeded := by
  constructor
  · intro hd
    cases d with
    | zero => exact absurd hd (lt_irrefl 0)
    | succ k =>
      rw [addAll_single_recursive_err env (k + 1) ps R _
        (resolve_absent_root env k R hget)]
  · rw [addAll_single_recursive_err env 0 ps R _ (resolve_deadline_zero env R)]

/-- C10 amended-claim witness: the empty store with a generous deadline. -/
theorem C10_witness :
    envEmpty.get cidR = none ∧
    ((0 < 5 → (addAll envEmpty 5 true PinSet.empty [Descriptor.bare cidR]).error
        = some (PinError.BlockNotFound cidR)) ∧
    (addAll envEmpty 0 true PinSet.empty [Descriptor.bare cidR]).error
        = some PinError.DeadlineExceeded) :=
  ⟨rfl, C10_absent_block_prompt_failure envEmpty 5 PinSet.empty cidR rfl⟩
